import Mathlib

/-!
Verification of the Barrett modular-arithmetic backend
(`src/core_crypto/modulus/barrett.rs`).

The Rust code is generic over an unsigned scalar type `Scalar` of bit width
`W` and a doubled-width companion `ScalarDoubled` of width `2*W`; the one-time
constant derivation additionally uses `u128`.  We embed machine integers as
`Nat` with explicit reduction `% 2 ^ width` at every point where the source
performs machine arithmetic that can wrap.  The embedding uses the wrapping
(release-build) semantics of Rust arithmetic; wherever a theorem below needs
the debug and release builds to agree (no overflow on the executed path) it
proves the required bounds.  Debug-only `debug_assert!` operand checks are
modelled separately as `Option`-valued variants (`none` = assertion failure).
-/

namespace Barrett

/-- Bit length (1-based position of the highest set bit, 0 for 0) of `m`,
computed with an explicit fuel so that the recursion is structural: `fuel`
halving steps resolve every `m < 2 ^ fuel`, so fuel `W` is exact for every
value of a `W`-bit scalar. -/
def bit_length : Nat → Nat → Nat
  | 0, _ => 0
  | fuel + 1, m => if m = 0 then 0 else bit_length fuel (m / 2) + 1

/-- Rust `m.leading_zeros()` on a `W`-bit unsigned scalar: the bit width minus
the 1-based position of the highest set bit. -/
def leading_zeros (W m : Nat) : Nat := W - bit_length W m

/-- The source expression `(std::mem::size_of::<Scalar>() * 8) - modulus.leading_zeros()`:
the bit length of the modulus (1-based index of its highest set bit). -/
def modulus_bits (W m : Nat) : Nat := W - leading_zeros W m

/-- Rust `1u128 << k`.  The shift amount is masked to the 128-bit width, which is
the release-build semantics; a debug build panics when `k ≥ 128`.  Every theorem
below keeps `k < 128`, where the two semantics agree and the value is `2 ^ k`. -/
def one_shl_u128 (k : Nat) : Nat := 1 <<< (k % 128)

/-- `precompute_alpha_and_barrett_constant` from the source: computes
`modulus_bits`, the wide constant `mu = (1u128 << (modulus_bits*2+3)) / modulus`,
and returns the pair `(modulus_bits + 3, mu as Scalar)` — the Barrett alpha and
the Barrett constant narrowed (truncated) to the `W`-bit scalar width. -/
def precompute_alpha_and_barrett_constant (W m : Nat) : Nat × Nat :=
  let mb := modulus_bits W m
  let mu := one_shl_u128 (mb * 2 + 3) / m
  (mb + 3, mu % 2 ^ W)

/-- Modelled from the spec: the trait only declares the accessor
`barrett_alpha`; the concrete backend holding the fields is not part of the
sources.  Per the spec, the constants are computed once at construction by the
precomputation, so the alpha accessor yields the first returned component. -/
def barrett_alpha (W m : Nat) : Nat := (precompute_alpha_and_barrett_constant W m).1

/-- Modelled from the spec: the trait only declares the accessor
`barrett_constant`; the concrete backend holding the fields is not part of the
sources.  Per the spec, the constants are computed once at construction by the
precomputation, so the constant accessor yields the second returned component
(the narrowed Barrett constant). -/
def barrett_constant (W m : Nat) : Nat := (precompute_alpha_and_barrett_constant W m).2

/-- `add_mod_fast` from the source (release semantics: the scalar addition
`a + b` wraps modulo `2 ^ W`): add, then subtract the modulus once if the sum
reached it. -/
def add_mod_fast (W m a b : Nat) : Nat :=
  let c := (a + b) % 2 ^ W
  if m ≤ c then c - m else c

/-- `sub_mod_fast` from the source (release semantics: the scalar addition
`a + modulus` and the following subtraction wrap modulo `2 ^ W`): return
`a - b` if `a ≥ b`, else `(a + modulus) - b`. -/
def sub_mod_fast (W m a b : Nat) : Nat :=
  if b ≤ a then a - b
  else ((a + m) % 2 ^ W + (2 ^ W - b)) % 2 ^ W

/-- `mul_mod_fast` from the source (release semantics; every doubled-width
operation is reduced `% 2 ^ (2*W)`, the final narrowing `.as_()` is
`% 2 ^ W`): widen and multiply, shift by `modulus_bits - 2`, multiply by the
narrowed Barrett constant, shift by `barrett_alpha + 2`, multiply the quotient
estimate by the modulus, subtract from the product, narrow, and apply one
conditional correction.  The shift amount `modulus_bits - 2` is the `Nat`
truncated subtraction; the debug-build underflow at `modulus_bits < 2` is
modelled separately by `mul_shift_amount`. -/
def mul_mod_fast (W m a b : Nat) : Nat :=
  let ab := (a * b) % 2 ^ (2 * W)
  let tmp1 := ab >>> (modulus_bits W m - 2)
  let q := ((tmp1 * barrett_constant W m) % 2 ^ (2 * W)) >>> (barrett_alpha W m + 2)
  let tmp2 := (q * m) % 2 ^ (2 * W)
  let res := ((ab + 2 ^ (2 * W) - tmp2) % 2 ^ (2 * W)) % 2 ^ W
  if m ≤ res then res - m else res

/-- The shift-amount computation `self.modulus_bits() - 2` of `mul_mod_fast`,
as the checked (debug-build) unsigned subtraction: Rust debug builds panic when
the subtraction underflows, so the amount is only defined for
`modulus_bits ≥ 2`. -/
def mul_shift_amount (W m : Nat) : Option Nat :=
  if 2 ≤ modulus_bits W m then some (modulus_bits W m - 2) else none

/-- The `debug_assert!(a < modulus)` / `debug_assert!(b < modulus)` operand
checks guarding `add_mod_fast`, as a debug-build `Option` variant: `none` means
an assertion fired (the process aborts), `some` carries the computed value. -/
def add_mod_fast_checked (W m a b : Nat) : Option Nat :=
  if a < m ∧ b < m then some (add_mod_fast W m a b) else none

/-- The operand assertions of `sub_mod_fast` as a debug-build `Option` variant. -/
def sub_mod_fast_checked (W m a b : Nat) : Option Nat :=
  if a < m ∧ b < m then some (sub_mod_fast W m a b) else none

/-- The operand assertions of `mul_mod_fast` as a debug-build `Option` variant. -/
def mul_mod_fast_checked (W m a b : Nat) : Option Nat :=
  if a < m ∧ b < m then some (mul_mod_fast W m a b) else none

/-! Helper lemmas about the bit-length computation. -/

theorem bit_length_le (fuel m : Nat) : bit_length fuel m ≤ fuel := by
  induction fuel generalizing m with
  | zero => simp [bit_length]
  | succ f ih =>
    unfold bit_length
    by_cases h : m = 0
    · simp [h]
    · rw [if_neg h]
      exact Nat.succ_le_succ (ih (m / 2))

theorem bit_length_eq {fuel m k : Nat} (hf : m < 2 ^ fuel)
    (h1 : 2 ^ k ≤ m) (h2 : m < 2 ^ (k + 1)) :
    bit_length fuel m = k + 1 := by
  induction fuel generalizing m k with
  | zero =>
    exfalso
    rw [pow_zero] at hf
    have := Nat.one_le_two_pow (n := k)
    omega
  | succ f ih =>
    have hm0 : m ≠ 0 := by
      have := Nat.one_le_two_pow (n := k)
      omega
    unfold bit_length
    rw [if_neg hm0]
    rcases Nat.eq_zero_or_pos k with hk | hk
    · subst hk
      have hm1 : m = 1 := by
        rw [pow_one] at h2
        omega
      subst hm1
      norm_num
      cases f <;> rfl
    · have hd1 : 2 ^ (k - 1) ≤ m / 2 := by
        rw [Nat.le_div_iff_mul_le (by norm_num)]
        calc 2 ^ (k - 1) * 2 = 2 ^ (k - 1 + 1) := by ring
        _ ≤ m := by
            rw [show k - 1 + 1 = k by omega]
            exact h1
      have hd2 : m / 2 < 2 ^ (k - 1 + 1) := by
        rw [Nat.div_lt_iff_lt_mul (by norm_num)]
        calc m < 2 ^ (k + 1) := h2
        _ = 2 ^ (k - 1 + 1) * 2 := by
            rw [← pow_succ]
            congr 1
            omega
      have hdf : m / 2 < 2 ^ f := by
        rw [Nat.div_lt_iff_lt_mul (by norm_num)]
        calc m < 2 ^ (f + 1) := hf
        _ = 2 ^ f * 2 := by rw [pow_succ]
      rw [ih hdf hd1 hd2]
      omega

theorem bit_length_bounds {fuel m : Nat} (hm : 1 ≤ m) (hf : m < 2 ^ fuel) :
    2 ^ (bit_length fuel m - 1) ≤ m ∧ m < 2 ^ bit_length fuel m
      ∧ 1 ≤ bit_length fuel m := by
  induction fuel generalizing m with
  | zero =>
    exfalso
    rw [pow_zero] at hf
    omega
  | succ f ih =>
    unfold bit_length
    rw [if_neg (by omega)]
    rcases Nat.lt_or_ge m 2 with h2 | h2
    · have hm1 : m = 1 := by omega
      subst hm1
      norm_num
      have h0 : bit_length f (1 / 2) = 0 := by
        norm_num
        cases f <;> rfl
      rw [h0]
      norm_num
    · have hd1 : 1 ≤ m / 2 := by
        rw [Nat.le_div_iff_mul_le (by norm_num)]
        omega
      have hdf : m / 2 < 2 ^ f := by
        rw [Nat.div_lt_iff_lt_mul (by norm_num)]
        calc m < 2 ^ (f + 1) := hf
        _ = 2 ^ f * 2 := by rw [pow_succ]
      obtain ⟨ha, hb, hc⟩ := ih hd1 hdf
      refine ⟨?_, ?_, by omega⟩
      · have he : bit_length f (m / 2) + 1 - 1 = (bit_length f (m / 2) - 1) + 1 := by omega
        rw [he, pow_succ]
        have := Nat.div_add_mod m 2
        omega
      · rw [pow_succ]
        have := Nat.div_add_mod m 2
        have := Nat.mod_lt m (show 0 < 2 by norm_num)
        omega

theorem modulus_bits_eq {W m : Nat} : modulus_bits W m = bit_length W m := by
  have h := bit_length_le W m
  simp only [modulus_bits, leading_zeros]
  omega

theorem two_le_bit_length {W m : Nat} (hm : 2 ≤ m) (hmW : m < 2 ^ W) :
    2 ≤ bit_length W m := by
  obtain ⟨-, hb, -⟩ := bit_length_bounds (by omega) hmW
  by_contra h
  interval_cases hbl : bit_length W m <;> simp [hbl] at hb <;> omega

/-! Arithmetic core of the generalized Barrett reduction: bounds on the
quotient estimate `q = ((ab >> (n-2)) * mu) >> (n+5)` computed by
`mul_mod_fast`.  `mus` stands for the possibly truncated stored constant,
which is always at most the exact `mu = 2^(2n+3) / m`. -/

theorem barrett_q_le {n m A mus : Nat} (hn : 2 ≤ n)
    (hmus : mus ≤ 2 ^ (2 * n + 3) / m) :
    (A / 2 ^ (n - 2) * mus / 2 ^ (n + 5)) * m ≤ A := by
  have hED : 2 ^ (n + 5) * 2 ^ (n - 2) = 2 ^ (2 * n + 3) := by
    rw [← pow_add]
    congr 1
    omega
  have hKpos : 0 < 2 ^ (2 * n + 3) := pow_pos (by norm_num) _
  have h1 : (A / 2 ^ (n - 2) * mus / 2 ^ (n + 5)) * 2 ^ (n + 5)
      ≤ A / 2 ^ (n - 2) * mus := Nat.div_mul_le_self _ _
  have h2 : A / 2 ^ (n - 2) * 2 ^ (n - 2) ≤ A := Nat.div_mul_le_self _ _
  have h3 : mus * m ≤ 2 ^ (2 * n + 3) :=
    le_trans (Nat.mul_le_mul_right m hmus) (Nat.div_mul_le_self _ _)
  have hchain : ((A / 2 ^ (n - 2) * mus / 2 ^ (n + 5)) * m) * 2 ^ (2 * n + 3)
      ≤ A * 2 ^ (2 * n + 3) := by
    calc ((A / 2 ^ (n - 2) * mus / 2 ^ (n + 5)) * m) * 2 ^ (2 * n + 3)
        = ((A / 2 ^ (n - 2) * mus / 2 ^ (n + 5)) * 2 ^ (n + 5)) * (m * 2 ^ (n - 2)) := by
          rw [← hED]
          ring
      _ ≤ (A / 2 ^ (n - 2) * mus) * (m * 2 ^ (n - 2)) :=
          Nat.mul_le_mul_right _ h1
      _ = (A / 2 ^ (n - 2) * 2 ^ (n - 2)) * (mus * m) := by ring
      _ ≤ A * 2 ^ (2 * n + 3) := Nat.mul_le_mul h2 h3
  exact Nat.le_of_mul_le_mul_right hchain hKpos

theorem barrett_q_small {n m A mus : Nat} (hn : 2 ≤ n) (hm0 : 1 ≤ m) (hA : A < m)
    (hmus : mus ≤ 2 ^ (2 * n + 3) / m) :
    A / 2 ^ (n - 2) * mus < 2 ^ (n + 5) := by
  have hED : 2 ^ (n + 5) * 2 ^ (n - 2) = 2 ^ (2 * n + 3) := by
    rw [← pow_add]
    congr 1
    omega
  have hDmpos : 0 < 2 ^ (n - 2) * m :=
    Nat.mul_pos (pow_pos (by norm_num) _) (by omega)
  have h2 : A / 2 ^ (n - 2) * 2 ^ (n - 2) ≤ A := Nat.div_mul_le_self _ _
  have h3 : mus * m ≤ 2 ^ (2 * n + 3) :=
    le_trans (Nat.mul_le_mul_right m hmus) (Nat.div_mul_le_self _ _)
  have hchain : (A / 2 ^ (n - 2) * mus) * (2 ^ (n - 2) * m)
      < 2 ^ (n + 5) * (2 ^ (n - 2) * m) := by
    calc (A / 2 ^ (n - 2) * mus) * (2 ^ (n - 2) * m)
        = (A / 2 ^ (n - 2) * 2 ^ (n - 2)) * (mus * m) := by ring
      _ ≤ A * 2 ^ (2 * n + 3) := Nat.mul_le_mul h2 h3
      _ < m * 2 ^ (2 * n + 3) :=
          (Nat.mul_lt_mul_right (pow_pos (by norm_num) _)).2 hA
      _ = 2 ^ (n + 5) * (2 ^ (n - 2) * m) := by
          rw [← hED]
          ring
  exact Nat.lt_of_mul_lt_mul_right hchain

theorem barrett_q_lower {n m A : Nat} (hn : 2 ≤ n) (hm1 : 2 ^ (n - 1) ≤ m)
    (hA : A < 2 ^ (2 * n)) :
    A < (A / 2 ^ (n - 2) * (2 ^ (2 * n + 3) / m) / 2 ^ (n + 5) + 2) * m := by
  have hm0 : 0 < m := lt_of_lt_of_le (pow_pos (by norm_num) _) hm1
  have hDpos : 0 < 2 ^ (n - 2) := pow_pos (by norm_num) _
  have hEpos : 0 < 2 ^ (n + 5) := pow_pos (by norm_num) _
  have hKpos : 0 < 2 ^ (2 * n + 3) := pow_pos (by norm_num) _
  have hED : 2 ^ (n + 5) * 2 ^ (n - 2) = 2 ^ (2 * n + 3) := by
    rw [← pow_add]
    congr 1
    omega
  have f1 : A < (A / 2 ^ (n - 2) + 1) * 2 ^ (n - 2) :=
    (Nat.div_lt_iff_lt_mul hDpos).1 (Nat.lt_succ_self _)
  have f2 : 2 ^ (2 * n + 3) < (2 ^ (2 * n + 3) / m + 1) * m :=
    (Nat.div_lt_iff_lt_mul hm0).1 (Nat.lt_succ_self _)
  have f3 : A / 2 ^ (n - 2) * (2 ^ (2 * n + 3) / m)
      < (A / 2 ^ (n - 2) * (2 ^ (2 * n + 3) / m) / 2 ^ (n + 5) + 1) * 2 ^ (n + 5) :=
    (Nat.div_lt_iff_lt_mul hEpos).1 (Nat.lt_succ_self _)
  have f4 : A / 2 ^ (n - 2) < 2 ^ (n + 2) := by
    rw [Nat.div_lt_iff_lt_mul hDpos]
    calc A < 2 ^ (2 * n) := hA
      _ = 2 ^ (n + 2) * 2 ^ (n - 2) := by
          rw [← pow_add]
          congr 1
          omega
  have f5 : 2 ^ (2 * n + 3) / m ≤ 2 ^ (n + 4) := by
    calc 2 ^ (2 * n + 3) / m ≤ 2 ^ (2 * n + 3) / 2 ^ (n - 1) :=
          Nat.div_le_div_left hm1 (pow_pos (by norm_num) _)
      _ = 2 ^ (n + 4) := by
          rw [Nat.pow_div (by omega) (by norm_num)]
          congr 1
          omega
  have hP2 : 2 ^ (n + 4) = 4 * 2 ^ (n + 2) := by
    rw [show n + 4 = 2 + (n + 2) by omega, pow_add]
    norm_num
  have hP3 : 2 ^ (n + 5) = 8 * 2 ^ (n + 2) := by
    rw [show n + 5 = 3 + (n + 2) by omega, pow_add]
    norm_num
  have hP1 : 1 ≤ 2 ^ (n + 2) := Nat.one_le_two_pow
  have hmid : (A / 2 ^ (n - 2) + 1) * (2 ^ (2 * n + 3) / m + 1)
      < (A / 2 ^ (n - 2) * (2 ^ (2 * n + 3) / m) / 2 ^ (n + 5) + 2) * 2 ^ (n + 5) := by
    have hexp1 : (A / 2 ^ (n - 2) + 1) * (2 ^ (2 * n + 3) / m + 1)
        = A / 2 ^ (n - 2) * (2 ^ (2 * n + 3) / m)
          + A / 2 ^ (n - 2) + 2 ^ (2 * n + 3) / m + 1 := by ring
    have hexp2 : (A / 2 ^ (n - 2) * (2 ^ (2 * n + 3) / m) / 2 ^ (n + 5) + 1) * 2 ^ (n + 5)
        = A / 2 ^ (n - 2) * (2 ^ (2 * n + 3) / m) / 2 ^ (n + 5) * 2 ^ (n + 5)
          + 2 ^ (n + 5) := by ring
    have hexp3 : (A / 2 ^ (n - 2) * (2 ^ (2 * n + 3) / m) / 2 ^ (n + 5) + 2) * 2 ^ (n + 5)
        = A / 2 ^ (n - 2) * (2 ^ (2 * n + 3) / m) / 2 ^ (n + 5) * 2 ^ (n + 5)
          + 2 * 2 ^ (n + 5) := by ring
    rw [hexp2] at f3
    rw [hexp1, hexp3]
    omega
  have hchain : A * 2 ^ (2 * n + 3)
      < ((A / 2 ^ (n - 2) * (2 ^ (2 * n + 3) / m) / 2 ^ (n + 5) + 2) * m)
          * 2 ^ (2 * n + 3) := by
    calc A * 2 ^ (2 * n + 3)
        < ((A / 2 ^ (n - 2) + 1) * 2 ^ (n - 2)) * ((2 ^ (2 * n + 3) / m + 1) * m) :=
          mul_lt_mul'' f1 f2 (Nat.zero_le _) (Nat.zero_le _)
      _ = ((A / 2 ^ (n - 2) + 1) * (2 ^ (2 * n + 3) / m + 1)) * (2 ^ (n - 2) * m) := by
          ring
      _ ≤ ((A / 2 ^ (n - 2) * (2 ^ (2 * n + 3) / m) / 2 ^ (n + 5) + 2) * 2 ^ (n + 5))
            * (2 ^ (n - 2) * m) :=
          Nat.mul_le_mul_right _ (le_of_lt hmid)
      _ = ((A / 2 ^ (n - 2) * (2 ^ (2 * n + 3) / m) / 2 ^ (n + 5) + 2) * m)
            * (2 ^ (n + 5) * 2 ^ (n - 2)) := by ring
      _ = ((A / 2 ^ (n - 2) * (2 ^ (2 * n + 3) / m) / 2 ^ (n + 5) + 2) * m)
            * 2 ^ (2 * n + 3) := by rw [hED]
  exact Nat.lt_of_mul_lt_mul_right hchain

theorem bit_length_le_of_lt {W m k : Nat} (hm : 1 ≤ m) (hmW : m < 2 ^ W)
    (hk : m < 2 ^ k) : bit_length W m ≤ k := by
  obtain ⟨ha, -, -⟩ := bit_length_bounds hm hmW
  by_contra h
  have h2 : k ≤ bit_length W m - 1 := by omega
  have h3 := le_trans (Nat.pow_le_pow_right (by norm_num) h2) ha
  omega

theorem barrett_alpha_eq {W m : Nat} : barrett_alpha W m = bit_length W m + 3 := by
  have h := bit_length_le W m
  simp only [barrett_alpha, precompute_alpha_and_barrett_constant, modulus_bits,
    leading_zeros]
  omega

theorem barrett_constant_lt {W m : Nat} : barrett_constant W m < 2 ^ W := by
  simp only [barrett_constant, precompute_alpha_and_barrett_constant]
  exact Nat.mod_lt _ (pow_pos (by norm_num) _)

/-- The stored constant never exceeds the exact wide constant
`2^(2n+3) / m`: both the 128-bit shift masking and the final narrowing can
only shrink it. -/
theorem barrett_constant_le {W m : Nat} :
    barrett_constant W m ≤ 2 ^ (2 * bit_length W m + 3) / m := by
  have h1 : one_shl_u128 (modulus_bits W m * 2 + 3) ≤ 2 ^ (2 * bit_length W m + 3) := by
    unfold one_shl_u128
    rw [Nat.shiftLeft_eq, one_mul, modulus_bits_eq]
    refine Nat.pow_le_pow_right (by norm_num) ?_
    have h2 := Nat.mod_le (bit_length W m * 2 + 3) 128
    omega
  calc barrett_constant W m
      ≤ one_shl_u128 (modulus_bits W m * 2 + 3) / m := by
        simp only [barrett_constant, precompute_alpha_and_barrett_constant]
        exact Nat.mod_le _ _
    _ ≤ 2 ^ (2 * bit_length W m + 3) / m := Nat.div_le_div_right h1

/-- Basic consequences of the spec's modulus validity bound
`2 ≤ m < 2^(W-2)`. -/
theorem valid_modulus_facts {W m : Nat} (hm : 2 ≤ m) (hmW : m < 2 ^ (W - 2)) :
    3 ≤ W ∧ m < 2 ^ W ∧ 2 ≤ bit_length W m ∧ bit_length W m ≤ W - 2
      ∧ 2 ^ (bit_length W m - 1) ≤ m ∧ m < 2 ^ bit_length W m := by
  have hW3 : 3 ≤ W := by
    by_contra h
    have h0 : W - 2 = 0 := by omega
    rw [h0, pow_zero] at hmW
    omega
  have hmW2 : m < 2 ^ W :=
    lt_of_lt_of_le hmW (Nat.pow_le_pow_right (by norm_num) (by omega))
  obtain ⟨h1, h2, -⟩ := bit_length_bounds (by omega) hmW2
  exact ⟨hW3, hmW2, two_le_bit_length hm hmW2,
    bit_length_le_of_lt (by omega) hmW2 hmW, h1, h2⟩

/-- Under the validity bound `2 ≤ m < 2^(W-2)` and in-range operands, none of
the doubled-width operations of `mul_mod_fast` wraps until the final narrowing,
so the computation equals the pure quotient-estimate subtraction followed by
the narrowing and one conditional correction. -/
theorem mul_mod_fast_eval {W m a b : Nat} (hm : 2 ≤ m) (hmW : m < 2 ^ (W - 2))
    (ha : a < m) (hb : b < m) :
    (a * b / 2 ^ (bit_length W m - 2) * barrett_constant W m
        / 2 ^ (bit_length W m + 5)) * m ≤ a * b
      ∧ mul_mod_fast W m a b =
        (if m ≤ (a * b - (a * b / 2 ^ (bit_length W m - 2) * barrett_constant W m
              / 2 ^ (bit_length W m + 5)) * m) % 2 ^ W
         then (a * b - (a * b / 2 ^ (bit_length W m - 2) * barrett_constant W m
              / 2 ^ (bit_length W m + 5)) * m) % 2 ^ W - m
         else (a * b - (a * b / 2 ^ (bit_length W m - 2) * barrett_constant W m
              / 2 ^ (bit_length W m + 5)) * m) % 2 ^ W) := by
  obtain ⟨hW3, hmW2, hn2, hnW, hb1, hb2⟩ := valid_modulus_facts hm hmW
  have hqm : (a * b / 2 ^ (bit_length W m - 2) * barrett_constant W m
      / 2 ^ (bit_length W m + 5)) * m ≤ a * b :=
    barrett_q_le hn2 barrett_constant_le
  refine ⟨hqm, ?_⟩
  have hA2n : a * b < 2 ^ (2 * bit_length W m) := by
    calc a * b < 2 ^ bit_length W m * 2 ^ bit_length W m :=
          mul_lt_mul'' (lt_of_lt_of_le ha (le_of_lt hb2)) (lt_of_lt_of_le hb (le_of_lt hb2))
            (Nat.zero_le _) (Nat.zero_le _)
      _ = 2 ^ (2 * bit_length W m) := by
          rw [← pow_add]
          congr 1
          omega
  have hA2W : a * b < 2 ^ (2 * W) :=
    lt_of_lt_of_le hA2n (Nat.pow_le_pow_right (by norm_num) (by omega))
  have ht : a * b / 2 ^ (bit_length W m - 2) < 2 ^ (bit_length W m + 2) := by
    rw [Nat.div_lt_iff_lt_mul (pow_pos (by norm_num) _)]
    calc a * b < 2 ^ (2 * bit_length W m) := hA2n
      _ = 2 ^ (bit_length W m + 2) * 2 ^ (bit_length W m - 2) := by
          rw [← pow_add]
          congr 1
          omega
  have htmus : a * b / 2 ^ (bit_length W m - 2) * barrett_constant W m < 2 ^ (2 * W) := by
    calc a * b / 2 ^ (bit_length W m - 2) * barrett_constant W m
        < 2 ^ (bit_length W m + 2) * 2 ^ W :=
          mul_lt_mul'' ht barrett_constant_lt (Nat.zero_le _) (Nat.zero_le _)
      _ = 2 ^ (bit_length W m + 2 + W) := by rw [← pow_add]
      _ ≤ 2 ^ (2 * W) := Nat.pow_le_pow_right (by norm_num) (by omega)
  have hqm2W : (a * b / 2 ^ (bit_length W m - 2) * barrett_constant W m
      / 2 ^ (bit_length W m + 5)) * m < 2 ^ (2 * W) :=
    lt_of_le_of_lt hqm hA2W
  simp only [mul_mod_fast]
  rw [Nat.mod_eq_of_lt hA2W, modulus_bits_eq, barrett_alpha_eq,
    Nat.shiftRight_eq_div_pow, Nat.shiftRight_eq_div_pow,
    Nat.mod_eq_of_lt htmus,
    show bit_length W m + 3 + 2 = bit_length W m + 5 by omega,
    Nat.mod_eq_of_lt hqm2W,
    show a * b + 2 ^ (2 * W) - (a * b / 2 ^ (bit_length W m - 2) * barrett_constant W m
        / 2 ^ (bit_length W m + 5)) * m
      = (a * b - (a * b / 2 ^ (bit_length W m - 2) * barrett_constant W m
        / 2 ^ (bit_length W m + 5)) * m) + 2 ^ (2 * W) by omega,
    Nat.add_mod_right,
    Nat.mod_eq_of_lt (lt_of_le_of_lt (Nat.sub_le _ _) hA2W)]

/-! Helper lemmas giving the mathematical value of the fast operations. -/

theorem add_mod_fast_eq {W m a b : Nat} (ha : a < m) (hb : b < m) (hs : a + b < 2 ^ W) :
    add_mod_fast W m a b = (a + b) % m := by
  unfold add_mod_fast
  rw [Nat.mod_eq_of_lt hs]
  by_cases h : m ≤ a + b
  · rw [if_pos h, Nat.mod_eq_sub_mod h, Nat.mod_eq_of_lt (by omega)]
  · rw [if_neg h, Nat.mod_eq_of_lt (by omega)]

theorem sub_mod_fast_eq {W m a b : Nat} (hmW : m < 2 ^ W)
    (ha : a < m) (hb : b < m) :
    sub_mod_fast W m a b = (a + m - b) % m := by
  unfold sub_mod_fast
  by_cases h : b ≤ a
  · rw [if_pos h]
    have he : a + m - b = (a - b) + m := by omega
    rw [he, Nat.add_mod_right, Nat.mod_eq_of_lt (by omega)]
  · rw [if_neg h, Nat.mod_add_mod]
    have he : a + m + (2 ^ W - b) = (a + m - b) + 2 ^ W := by omega
    rw [he, Nat.add_mod_right, Nat.mod_eq_of_lt (by omega), Nat.mod_eq_of_lt (by omega)]

/-- C4: for `1 ≤ m < 2^(W-2)` and operands `a, b < m`, `add_mod_fast` returns
`(a+b) mod m`; the internal sum `a+b` does not overflow the `W`-bit scalar
width, and at most one subtraction of the modulus is needed since
`a+b < 2·m`. -/
theorem add_mod_fast_correct (W m a b : Nat) (hm : 1 ≤ m) (hmW : m < 2 ^ (W - 2))
    (ha : a < m) (hb : b < m) :
    add_mod_fast W m a b = (a + b) % m ∧ a + b < 2 ^ W ∧ a + b < 2 * m := by
  have h2m : 2 * m < 2 ^ W := by
    rcases Nat.lt_or_ge W 3 with h | h
    · exfalso
      have h0 : W - 2 = 0 := by omega
      rw [h0, pow_zero] at hmW
      omega
    · have h1 : 2 * m < 2 * 2 ^ (W - 2) := by omega
      have h2 : 2 * 2 ^ (W - 2) ≤ 2 ^ W := by
        have h3 : 2 * 2 ^ (W - 2) = 2 ^ (W - 2 + 1) := by ring
        rw [h3]
        exact Nat.pow_le_pow_right (by norm_num) (by omega)
      omega
  exact ⟨add_mod_fast_eq ha hb (by omega), by omega, by omega⟩

/-- C4 witness: the spec scenario `m = 17`, `a = 10`, `b = 12`. -/
theorem add_mod_fast_correct_witness :
    add_mod_fast 64 17 10 12 = (10 + 12) % 17 ∧ 10 + 12 < 2 ^ 64 ∧ 10 + 12 < 2 * 17 :=
  add_mod_fast_correct 64 17 10 12 (by norm_num) (by norm_num) (by norm_num) (by norm_num)

/-- C5: for every modulus `m ≥ 1` (a `W`-bit scalar) and `a, b ∈ [0, m)`,
`sub_mod_fast` returns `(a-b) mod m`: it returns `a-b` when `a ≥ b` and
`(a+m)-b` otherwise, the modulus added before subtracting so the subtraction
never underflows (`b ≤ a` in the first branch, `b ≤ a+m` in the second). -/
theorem sub_mod_fast_correct (W m a b : Nat) (hm : 1 ≤ m) (hmW : m < 2 ^ W)
    (ha : a < m) (hb : b < m) :
    ((sub_mod_fast W m a b : ℤ) = ((a : ℤ) - b) % m)
      ∧ (b ≤ a → sub_mod_fast W m a b = a - b)
      ∧ (a < b → sub_mod_fast W m a b = (a + m) - b ∧ b ≤ a + m)
      ∧ sub_mod_fast W m a b < m := by
  have he := sub_mod_fast_eq hmW ha hb
  have hlt : sub_mod_fast W m a b < m := by
    rw [he]; exact Nat.mod_lt _ (by omega)
  refine ⟨?_, ?_, ?_, hlt⟩
  · rw [he]
    have hba : b ≤ a + m := by omega
    push_cast [hba]
    have h1 : (a : ℤ) + m - b = (a - b) + m * 1 := by ring
    rw [h1, Int.add_mul_emod_self_left]
  · intro h
    unfold sub_mod_fast
    rw [if_pos h]
  · intro h
    exact ⟨by rw [he, Nat.mod_eq_of_lt (by omega)], by omega⟩

/-- C5 witness: the spec scenario `m = 17`, `a = 10`, `b = 12`, returning 15. -/
theorem sub_mod_fast_correct_witness :
    ((sub_mod_fast 64 17 10 12 : ℤ) = ((10 : ℤ) - 12) % 17)
      ∧ (12 ≤ 10 → sub_mod_fast 64 17 10 12 = 10 - 12)
      ∧ (10 < 12 → sub_mod_fast 64 17 10 12 = (10 + 17) - 12 ∧ 12 ≤ 10 + 17)
      ∧ sub_mod_fast 64 17 10 12 < 17 :=
  sub_mod_fast_correct 64 17 10 12 (by norm_num) (by norm_num) (by norm_num) (by norm_num)

/-- C6: `mul_mod_fast` is commutative in its two operands (for every width,
modulus and operand pair, since the only operand-dependent quantity is the
product `a*b`). -/
theorem mul_mod_fast_comm (W m a b : Nat) :
    mul_mod_fast W m a b = mul_mod_fast W m b a := by
  unfold mul_mod_fast
  rw [Nat.mul_comm a b]

/-- C8: the debug-build operand assertions of each of the three operations fire
(`none`, aborting the process) exactly when some operand reaches the modulus,
and otherwise the checked variant returns precisely the value of the unchecked
(release) function, which is total and performs no operand validation. -/
theorem operand_assert_semantics (W m a b : Nat) :
    (add_mod_fast_checked W m a b = none ↔ m ≤ a ∨ m ≤ b)
      ∧ (sub_mod_fast_checked W m a b = none ↔ m ≤ a ∨ m ≤ b)
      ∧ (mul_mod_fast_checked W m a b = none ↔ m ≤ a ∨ m ≤ b)
      ∧ (add_mod_fast_checked W m a b = some (add_mod_fast W m a b) ↔ a < m ∧ b < m)
      ∧ (sub_mod_fast_checked W m a b = some (sub_mod_fast W m a b) ↔ a < m ∧ b < m)
      ∧ (mul_mod_fast_checked W m a b = some (mul_mod_fast W m a b) ↔ a < m ∧ b < m) := by
  unfold add_mod_fast_checked sub_mod_fast_checked mul_mod_fast_checked
  by_cases h : a < m ∧ b < m
  · rw [if_pos h, if_pos h, if_pos h]
    simp only [reduceCtorEq, false_iff, true_iff, iff_true]
    refine ⟨by omega, by omega, by omega, h, h, h⟩
  · rw [if_neg h, if_neg h, if_neg h]
    simp only [reduceCtorEq, iff_false, true_iff, iff_true]
    refine ⟨by omega, by omega, by omega, by tauto, by tauto, by tauto⟩

/-- C9: the first reduction shift of `mul_mod_fast` is only well defined for
`modulus_bits ≥ 2`: the debug-build shift-amount subtraction
`modulus_bits - 2` succeeds exactly when `m ≥ 2`, and for `m = 1` (admitted by
the precondition `modulus ≥ 1`) it underflows, `modulus_bits` being 1. -/
theorem mul_shift_amount_spec (W m : Nat) (hm : 1 ≤ m) (hmW : m < 2 ^ W) :
    ((mul_shift_amount W m).isSome ↔ 2 ≤ m)
      ∧ (m = 1 → modulus_bits W m = 1 ∧ mul_shift_amount W m = none) := by
  have hmb : modulus_bits W m = bit_length W m := modulus_bits_eq
  have h1 : m = 1 → bit_length W m = 1 := by
    intro h
    subst h
    exact bit_length_eq hmW (by norm_num) (by norm_num)
  constructor
  · unfold mul_shift_amount
    rw [hmb]
    constructor
    · intro h
      by_contra hlt
      have hm1 : m = 1 := by omega
      rw [h1 hm1] at h
      simp at h
    · intro h
      rw [if_pos (two_le_bit_length h hmW)]
      rfl
  · intro hm1
    refine ⟨by rw [hmb, h1 hm1], ?_⟩
    unfold mul_shift_amount
    rw [hmb, h1 hm1]
    rfl

/-- C10 (amended): for every modulus `m` with `1 ≤ m < 2^(W-1)` — so that the
internal scalar addition of `add_mod_fast` cannot wrap — and all
`a, b ∈ [0, m)`, `add_mod_fast` and `sub_mod_fast` are mutually inverse on
residues. -/
theorem add_sub_roundtrip (W m a b : Nat) (hm : 1 ≤ m) (hmW : m < 2 ^ (W - 1))
    (ha : a < m) (hb : b < m) :
    add_mod_fast W m (sub_mod_fast W m a b) b = a
      ∧ sub_mod_fast W m (add_mod_fast W m a b) b = a := by
  have h2m : 2 * m ≤ 2 ^ W := by
    rcases Nat.eq_zero_or_pos W with h0 | h0
    · exfalso
      rw [h0] at hmW
      simp at hmW
      omega
    · have h1 : 2 * m < 2 * 2 ^ (W - 1) := by omega
      have h2 : 2 * 2 ^ (W - 1) = 2 ^ W := by
        rw [← pow_succ']
        congr 1
        omega
      omega
  have hmW0 : m < 2 ^ W := by omega
  constructor
  · have hx := sub_mod_fast_eq hmW0 ha hb
    have hxlt : sub_mod_fast W m a b < m := by
      rw [hx]; exact Nat.mod_lt _ (by omega)
    have hs2 : sub_mod_fast W m a b + b < 2 ^ W := by omega
    rw [add_mod_fast_eq hxlt hb hs2, hx, Nat.mod_add_mod]
    have he : a + m - b + b = a + m := by omega
    rw [he, Nat.add_mod_right, Nat.mod_eq_of_lt ha]
  · have hab : a + b < 2 ^ W := by omega
    have hs := add_mod_fast_eq ha hb hab
    have hslt : add_mod_fast W m a b < m := by
      rw [hs]; exact Nat.mod_lt _ (by omega)
    rw [sub_mod_fast_eq hmW0 hslt hb, hs]
    have hxb : ((a + b) % m + m - b) + b = (a + b) % m + m := by
      have : b ≤ (a + b) % m + m := by omega
      omega
    have h1 : ((a + b) % m + m - b) + b ≡ a + b [MOD m] := by
      unfold Nat.ModEq
      rw [hxb, Nat.add_mod_right, Nat.mod_eq_of_lt (Nat.mod_lt _ (show 0 < m by omega))]
    have h2 : (a + b) % m + m - b ≡ a [MOD m] := Nat.ModEq.add_right_cancel' b h1
    have h3 : ((a + b) % m + m - b) % m = a % m := h2
    rw [h3, Nat.mod_eq_of_lt ha]

/-- C10 witness: `W = 64`, `m = 17`, `a = 10`, `b = 12`. -/
theorem add_sub_roundtrip_witness :
    add_mod_fast 64 17 (sub_mod_fast 64 17 10 12) 12 = 10
      ∧ sub_mod_fast 64 17 (add_mod_fast 64 17 10 12) 12 = 10 :=
  add_sub_roundtrip 64 17 10 12 (by norm_num) (by norm_num) (by norm_num) (by norm_num)

/-- C10 counterexample: at `W = 64` with the in-range scalar modulus
`m = 2^64 - 1` (which the claim's precondition `m ≥ 1` admits) and operands
`a = 2^64 - 3`, `b = 2^64 - 2` in `[0, m)`, the scalar sum inside
`add_mod_fast` wraps, so `add_mod_fast(sub_mod_fast(a, b), b)` returns
`2^64 - 4`, not `a`. -/
theorem add_sub_roundtrip_cex :
    2 ^ 64 - 3 < 2 ^ 64 - 1
      ∧ 2 ^ 64 - 2 < 2 ^ 64 - 1
      ∧ add_mod_fast 64 (2 ^ 64 - 1) (sub_mod_fast 64 (2 ^ 64 - 1) (2 ^ 64 - 3) (2 ^ 64 - 2))
          (2 ^ 64 - 2) = 2 ^ 64 - 4
      ∧ ¬ (add_mod_fast 64 (2 ^ 64 - 1) (sub_mod_fast 64 (2 ^ 64 - 1) (2 ^ 64 - 3) (2 ^ 64 - 2))
          (2 ^ 64 - 2) = 2 ^ 64 - 3) := by
  refine ⟨by norm_num, by norm_num, ?_, ?_⟩ <;> decide

/-- C2: for the Mersenne modulus `m = 2^61 - 1` at scalar width 64, the
precomputation derives `modulus_bits = 61`, the Barrett alpha 64, and the
Barrett constant `floor(2^125 / (2^61 - 1))`, stored narrowed to the 64-bit
scalar width. -/
theorem precompute_constants_mersenne61 :
    modulus_bits 64 (2 ^ 61 - 1) = 61
      ∧ barrett_alpha 64 (2 ^ 61 - 1) = 64
      ∧ barrett_constant 64 (2 ^ 61 - 1) = (2 ^ 125 / (2 ^ 61 - 1)) % 2 ^ 64 := by
  have hsz : bit_length 64 (2 ^ 61 - 1) = 60 + 1 :=
    bit_length_eq (by norm_num) (by norm_num) (by norm_num)
  simp only [barrett_alpha, barrett_constant, precompute_alpha_and_barrett_constant,
    modulus_bits, leading_zeros, one_shl_u128, hsz, Nat.shiftLeft_eq]
  norm_num

/-- C3 counterexample: at `W = 64`, `m = 1`, the highest set bit of the modulus
is at (1-based) position 1, yet the first component returned by
`precompute_alpha_and_barrett_constant` is 4, so the first component is not
`modulus_bits`. -/
theorem precompute_fst_cex :
    (precompute_alpha_and_barrett_constant 64 1).1 = 4
      ∧ modulus_bits 64 1 = 1
      ∧ (precompute_alpha_and_barrett_constant 64 1).1 ≠ modulus_bits 64 1 := by
  decide

/-- C3 (amended): for every modulus `m ≥ 1` (fitting the scalar width), the
first component of the pair returned by `precompute_alpha_and_barrett_constant`
is `modulus_bits + 3` — the Barrett alpha — where `modulus_bits` is the 1-based
position `k+1` of the modulus's highest set bit; the second component is the
Barrett constant. -/
theorem precompute_fst_eq_bits_add_three (W m k : Nat) (hmW : m < 2 ^ W)
    (h1 : 2 ^ k ≤ m) (h2 : m < 2 ^ (k + 1)) :
    (precompute_alpha_and_barrett_constant W m).1 = (k + 1) + 3 := by
  have hsz : bit_length W m = k + 1 := bit_length_eq hmW h1 h2
  have hle := bit_length_le W m
  simp only [precompute_alpha_and_barrett_constant, modulus_bits, leading_zeros]
  omega

/-- C3 witness: `W = 64`, `m = 17` (highest bit position 5) gives first
component 8. -/
theorem precompute_fst_eq_bits_add_three_witness :
    (precompute_alpha_and_barrett_constant 64 17).1 = (4 + 1) + 3 :=
  precompute_fst_eq_bits_add_three 64 17 4 (by norm_num) (by norm_num) (by norm_num)

/-- When the wide Barrett constant fits the scalar width (and the 128-bit
shift is in range, which `W ≤ 64` guarantees for valid moduli), the stored
constant is exactly `2^(2n+3) / m`. -/
theorem barrett_constant_eq {W m : Nat} (hm : 2 ≤ m) (hmW : m < 2 ^ (W - 2))
    (hW : W ≤ 64) (hfit : 2 ^ (2 * bit_length W m + 3) / m < 2 ^ W) :
    barrett_constant W m = 2 ^ (2 * bit_length W m + 3) / m := by
  obtain ⟨hW3, hmW2, hn2, hnW, hbl1, hbl2⟩ := valid_modulus_facts hm hmW
  have hsh : (bit_length W m * 2 + 3) % 128 = bit_length W m * 2 + 3 :=
    Nat.mod_eq_of_lt (by omega)
  simp only [barrett_constant, precompute_alpha_and_barrett_constant, modulus_bits_eq,
    one_shl_u128, hsh, Nat.shiftLeft_eq, one_mul]
  rw [show bit_length W m * 2 + 3 = 2 * bit_length W m + 3 by omega]
  exact Nat.mod_eq_of_lt hfit

/-- C7: identity laws.  For every valid modulus (`1 ≤ m < 2^(W-2)`) and every
residue `a < m`: `add_mod_fast(a,0) = a`, `sub_mod_fast(a,0) = a`, and, when
`m > 1`, `mul_mod_fast(a,1) = a`. -/
theorem identity_laws (W m a : Nat) (hm : 1 ≤ m) (hmW : m < 2 ^ (W - 2)) (ha : a < m) :
    add_mod_fast W m a 0 = a ∧ sub_mod_fast W m a 0 = a
      ∧ (1 < m → mul_mod_fast W m a 1 = a) := by
  have hpow : (2 : Nat) ^ (W - 2) ≤ 2 ^ W :=
    Nat.pow_le_pow_right (by norm_num) (Nat.sub_le W 2)
  refine ⟨?_, ?_, ?_⟩
  · rw [add_mod_fast_eq ha (by omega) (show a + 0 < 2 ^ W by omega)]
    rw [Nat.add_zero, Nat.mod_eq_of_lt ha]
  · unfold sub_mod_fast
    rw [if_pos (Nat.zero_le a), Nat.sub_zero]
  · intro h1
    obtain ⟨hW3, hmW2, hn2, hnW, hbl1, hbl2⟩ := valid_modulus_facts h1 hmW
    obtain ⟨-, heq⟩ := mul_mod_fast_eval h1 hmW ha h1
    have hA1 : a * 1 < m := by
      rw [mul_one]
      exact ha
    have hq0 : a * 1 / 2 ^ (bit_length W m - 2) * barrett_constant W m
        / 2 ^ (bit_length W m + 5) = 0 :=
      Nat.div_eq_of_lt (barrett_q_small hn2 (by omega) hA1 barrett_constant_le)
    rw [heq, hq0, Nat.zero_mul, Nat.sub_zero, Nat.mul_one,
      Nat.mod_eq_of_lt (lt_trans ha hmW2), if_neg (by omega)]

/-- C7 witness: `W = 64`, `m = 17`, `a = 10`. -/
theorem identity_laws_witness :
    add_mod_fast 64 17 10 0 = 10 ∧ sub_mod_fast 64 17 10 0 = 10
      ∧ (1 < 17 → mul_mod_fast 64 17 10 1 = 10) :=
  identity_laws 64 17 10 (by norm_num) (by norm_num) (by norm_num)

/-- C1 (amended): for every modulus `m` with `2 ≤ m < 2^(W-2)` (`W ≤ 64` the
scalar bit width) whose wide Barrett constant `floor(2^(2·modulus_bits+3)/m)`
fits the scalar width — so the stored narrowed constant is exact — and all
operands `a, b ∈ [0, m)`, `mul_mod_fast(a, b)` returns exactly `(a·b) mod m`,
which lies in `[0, m)`. -/
theorem mul_mod_fast_correct (W m a b : Nat) (hm : 2 ≤ m) (hmW : m < 2 ^ (W - 2))
    (hW : W ≤ 64) (hfit : 2 ^ (2 * bit_length W m + 3) / m < 2 ^ W)
    (ha : a < m) (hb : b < m) :
    mul_mod_fast W m a b = a * b % m ∧ mul_mod_fast W m a b < m := by
  obtain ⟨hW3, hmW2, hn2, hnW, hbl1, hbl2⟩ := valid_modulus_facts hm hmW
  obtain ⟨hqle, heq⟩ := mul_mod_fast_eval hm hmW ha hb
  rw [barrett_constant_eq hm hmW hW hfit] at hqle heq
  have hA2n : a * b < 2 ^ (2 * bit_length W m) := by
    calc a * b < 2 ^ bit_length W m * 2 ^ bit_length W m :=
          mul_lt_mul'' (lt_of_lt_of_le ha (le_of_lt hbl2))
            (lt_of_lt_of_le hb (le_of_lt hbl2)) (Nat.zero_le _) (Nat.zero_le _)
      _ = 2 ^ (2 * bit_length W m) := by
          rw [← pow_add]
          congr 1
          omega
  have hlow := barrett_q_lower hn2 hbl1 hA2n
  have hdist : (a * b / 2 ^ (bit_length W m - 2) * (2 ^ (2 * bit_length W m + 3) / m)
        / 2 ^ (bit_length W m + 5) + 2) * m
      = (a * b / 2 ^ (bit_length W m - 2) * (2 ^ (2 * bit_length W m + 3) / m)
        / 2 ^ (bit_length W m + 5)) * m + 2 * m := by ring
  have h2mW : 2 * m < 2 ^ W := by
    have hstep : 2 * m < 2 ^ (bit_length W m + 1) := by
      rw [pow_succ]
      omega
    have hle : (2 : Nat) ^ (bit_length W m + 1) ≤ 2 ^ W :=
      Nat.pow_le_pow_right (by norm_num) (by omega)
    omega
  have hres0 : a * b - (a * b / 2 ^ (bit_length W m - 2)
      * (2 ^ (2 * bit_length W m + 3) / m) / 2 ^ (bit_length W m + 5)) * m < 2 * m := by
    omega
  rw [heq, Nat.mod_eq_of_lt (by omega)]
  rcases Nat.lt_or_ge (a * b)
      ((a * b / 2 ^ (bit_length W m - 2) * (2 ^ (2 * bit_length W m + 3) / m)
        / 2 ^ (bit_length W m + 5) + 1) * m) with hc | hc
  · have hdiv : a * b / m = a * b / 2 ^ (bit_length W m - 2)
        * (2 ^ (2 * bit_length W m + 3) / m) / 2 ^ (bit_length W m + 5) :=
      Nat.div_eq_of_lt_le hqle hc
    have hdm := Nat.div_add_mod (a * b) m
    rw [hdiv] at hdm
    have hcomm : m * (a * b / 2 ^ (bit_length W m - 2)
          * (2 ^ (2 * bit_length W m + 3) / m) / 2 ^ (bit_length W m + 5))
        = (a * b / 2 ^ (bit_length W m - 2)
          * (2 ^ (2 * bit_length W m + 3) / m) / 2 ^ (bit_length W m + 5)) * m :=
      Nat.mul_comm _ _
    have hd1 : (a * b / 2 ^ (bit_length W m - 2) * (2 ^ (2 * bit_length W m + 3) / m)
          / 2 ^ (bit_length W m + 5) + 1) * m
        = (a * b / 2 ^ (bit_length W m - 2) * (2 ^ (2 * bit_length W m + 3) / m)
          / 2 ^ (bit_length W m + 5)) * m + m := by ring
    have hmod := Nat.mod_lt (a * b) (show 0 < m by omega)
    rw [if_neg (by omega)]
    omega
  · have hdiv : a * b / m = a * b / 2 ^ (bit_length W m - 2)
        * (2 ^ (2 * bit_length W m + 3) / m) / 2 ^ (bit_length W m + 5) + 1 :=
      Nat.div_eq_of_lt_le (by
        have hd1 : (a * b / 2 ^ (bit_length W m - 2) * (2 ^ (2 * bit_length W m + 3) / m)
              / 2 ^ (bit_length W m + 5) + 1) * m
            = (a * b / 2 ^ (bit_length W m - 2) * (2 ^ (2 * bit_length W m + 3) / m)
              / 2 ^ (bit_length W m + 5)) * m + m := by ring
        omega) (by
        have hd2 : (a * b / 2 ^ (bit_length W m - 2) * (2 ^ (2 * bit_length W m + 3) / m)
              / 2 ^ (bit_length W m + 5) + 1 + 1) * m
            = (a * b / 2 ^ (bit_length W m - 2) * (2 ^ (2 * bit_length W m + 3) / m)
              / 2 ^ (bit_length W m + 5) + 2) * m := by ring
        omega)
    have hdm := Nat.div_add_mod (a * b) m
    rw [hdiv] at hdm
    have hexp : m * (a * b / 2 ^ (bit_length W m - 2)
          * (2 ^ (2 * bit_length W m + 3) / m) / 2 ^ (bit_length W m + 5) + 1)
        = (a * b / 2 ^ (bit_length W m - 2)
          * (2 ^ (2 * bit_length W m + 3) / m) / 2 ^ (bit_length W m + 5)) * m + m := by
      ring
    have hmod := Nat.mod_lt (a * b) (show 0 < m by omega)
    rw [if_pos (by omega)]
    omega

/-- C1 witness: the spec scenario `W = 64`, `m = 17`, `a = 10`, `b = 12`,
where `mul_mod_fast` returns `120 mod 17 = 1`. -/
theorem mul_mod_fast_correct_witness :
    mul_mod_fast 64 17 10 12 = 10 * 12 % 17 ∧ mul_mod_fast 64 17 10 12 < 17 :=
  mul_mod_fast_correct 64 17 10 12 (by norm_num) (by norm_num) (by norm_num)
    (by decide) (by norm_num) (by norm_num)

/-- C1 counterexample: at `W = 64` the modulus `m = 2^61 - 1` satisfies the
claim's precondition `1 ≤ m < 2^(W-2)`, yet its wide Barrett constant
`2^64 + 8` loses its top bit when narrowed to 64 bits, and with operands
`a = b = 2^31 < m` the function returns `2^61 + 1` instead of
`2^62 mod (2^61 - 1) = 2`; the returned value is not even in `[0, m)`. -/
theorem mul_mod_fast_cex :
    (1 : Nat) ≤ 2 ^ 61 - 1
      ∧ 2 ^ 61 - 1 < 2 ^ (64 - 2)
      ∧ 2 ^ 31 < 2 ^ 61 - 1
      ∧ mul_mod_fast 64 (2 ^ 61 - 1) (2 ^ 31) (2 ^ 31) = 2 ^ 61 + 1
      ∧ 2 ^ 31 * 2 ^ 31 % (2 ^ 61 - 1) = 2
      ∧ ¬ (mul_mod_fast 64 (2 ^ 61 - 1) (2 ^ 31) (2 ^ 31)
            = 2 ^ 31 * 2 ^ 31 % (2 ^ 61 - 1))
      ∧ ¬ (mul_mod_fast 64 (2 ^ 61 - 1) (2 ^ 31) (2 ^ 31) < 2 ^ 61 - 1) := by
  decide

/-- C9 witness: at `W = 64`, `m = 1` the shift amount is undefined. -/
theorem mul_shift_amount_spec_witness :
    ((mul_shift_amount 64 1).isSome ↔ 2 ≤ 1)
      ∧ (1 = 1 → modulus_bits 64 1 = 1 ∧ mul_shift_amount 64 1 = none) :=
  mul_shift_amount_spec 64 1 (by norm_num) (by norm_num)

end Barrett
